import Mathlib

/-!
Verification of `simple_board.py` (repository yinsongtang/Cmput455, assignment2):
a padded one-dimensional Go board with legality checking, block discovery,
liberty counting, a destructive `play_move`, a base-3 position encoder `code`,
and a boolean negamax solver (`negamaxBoolean`, `solve_single`) memoized
through a transposition table.

The Python object state (`self.size`, `self.board`, `self.current_player`,
`self.ko_recapture`, `self.moves`, `self.current_winning_move`) is embedded as
the structure `GoBoard`.  The neighbor lists and the `valid_points` array are
precomputed by `reset` from the freshly reset grid and never recomputed, so
they are embedded as pure functions of `size`.  The wall-clock deadline check
`time.time() > self.time` is an external input polled once per call; it is
embedded as an explicit boolean argument `timeUp`.  Stateful methods are
embedded as explicit state-passing functions returning the result together
with the final state; Python exceptions are embedded as the `MoveOutcome.exn`
constructor carrying the message and the state left behind by the raise.
-/

/-- Color constants.  `board_util.py` is not under src/.  Modelled from the
spec: §4.4 fixes the encoder cell values 0,1,2 for Empty, Black, White, and
§3 requires the border sentinel to be distinct from all three. -/
def EMPTY : Nat := 0

/-- Black stone color (see `EMPTY`). -/
def BLACK : Nat := 1

/-- White stone color (see `EMPTY`). -/
def WHITE : Nat := 2

/-- Border sentinel (see `EMPTY`). -/
def BORDER : Nat := 3

/-- Modelled from the spec: `board_util.py` is not under src/; §3 says
`currentPlayer` is one of {Black, White} and flips after every committed
move, so `opponent` swaps BLACK and WHITE. -/
def opponent (color : Nat) : Nat :=
  if color = BLACK then WHITE else BLACK

/-- Modelled from the spec: `board_util.py` is not under src/; §7 calls a
color argument valid when it is Black or White. -/
def is_black_white (color : Nat) : Bool :=
  color == BLACK || color == WHITE

/-- `self.maxpoint = size * size + 3 * (size + 1)` (reset). -/
def maxpoint (size : Nat) : Nat := size * size + 3 * (size + 1)

/-- `row_start`: `row * self.NS + 1` with `NS = size + 1`. -/
def row_start (size row : Nat) : Nat := row * (size + 1) + 1

/-- One row of `_initialize_empty_points`: the slice assignment
`board[start : start + size] = EMPTY`, written cell by cell. -/
def fillRow : List Nat → Nat → Nat → List Nat
  | bd, _, 0 => bd
  | bd, start, len + 1 => fillRow (bd.set start EMPTY) (start + 1) len

/-- `_initialize_empty_points`: for each row in 1..size fill the row slice
with EMPTY. -/
def init_empty_points (size : Nat) (bd : List Nat) : List Nat :=
  (List.range size).foldl (fun b row => fillRow b (row_start size (row + 1)) size) bd

/-- The grid produced by `reset`: `np.full(maxpoint, BORDER)` followed by
`_initialize_empty_points`. -/
def resetBoard (size : Nat) : List Nat :=
  init_empty_points size (List.replicate (maxpoint size) BORDER)

/-- `_neighbors`: the four candidate neighbors `[p-1, p+1, p-NS, p+NS]`. -/
def neighbors_list (size point : Nat) : List Nat :=
  [point - 1, point + 1, point - (size + 1), point + (size + 1)]

/-- `_on_board_neighbors` as evaluated at reset time (the only time it runs):
keep the candidates whose reset-grid cell is not BORDER. -/
def on_board_neighbors (size point : Nat) : List Nat :=
  (neighbors_list size point).filter (fun nb => (resetBoard size).getD nb BORDER != BORDER)

/-- `_initialize_neighbors`: border points get `[]`, the rest their on-board
neighbors.  `self.neighbors` is precomputed once by `reset` and never touched
by any mutation, so it is a pure function of `size`. -/
def neighbors (size point : Nat) : List Nat :=
  if (resetBoard size).getD point BORDER == BORDER then []
  else on_board_neighbors size point

/-- The mutable Python object state of `SimpleGoBoard`. -/
structure GoBoard where
  size : Nat
  board : List Nat
  current_player : Nat
  ko_recapture : Option Nat
  moves : List Nat
  current_winning_move : Option Nat
deriving DecidableEq

/-- `get_color`: `self.board[point]` (out-of-range reads, impossible in the
source, default to the BORDER sentinel). -/
def GoBoard.get_color (b : GoBoard) (point : Nat) : Nat :=
  b.board.getD point BORDER

/-- `neighbors_of_color`: neighbors of `point` holding `color`. -/
def neighbors_of_color (b : GoBoard) (point color : Nat) : List Nat :=
  (neighbors b.size point).filter (fun nb => b.get_color nb == color)

/-- `find_neighbor_of_color`: first neighbor of `point` holding `color`. -/
def find_neighbor_of_color (b : GoBoard) (point color : Nat) : Option Nat :=
  (neighbors b.size point).find? (fun nb => b.get_color nb == color)

/-- `_is_surrounded`: every on-board neighbor of `point` holds `color`. -/
def is_surrounded (b : GoBoard) (point color : Nat) : Bool :=
  (neighbors b.size point).all (fun nb => b.get_color nb == color)

/-- `_stone_has_liberty`: `point` has an EMPTY neighbor. -/
def stone_has_liberty (b : GoBoard) (stone : Nat) : Bool :=
  (find_neighbor_of_color b stone EMPTY).isSome

/-- Inner loop of `_block_of`: visit the same-colored neighbors of the popped
point, marking and pushing the unmarked ones (out-of-range marker reads,
impossible in the source, count as already marked). -/
def blockStep (nbs : List Nat) (marker : List Bool) (stack : List Nat) :
    List Bool × List Nat :=
  nbs.foldl
    (fun ms nb => if ms.1.getD nb true then ms else (ms.1.set nb true, nb :: ms.2))
    (marker, stack)

/-- Outer while-loop of `_block_of`.  The fuel only bounds the number of
iterations: each iteration either shrinks the stack or marks an unmarked
point, so `2 * marker.length + 2` iterations always suffice and the fuel
never runs out on the source's inputs. -/
def blockLoop (b : GoBoard) (color : Nat) : Nat → List Bool → List Nat → List Bool
  | 0, marker, _ => marker
  | _ + 1, marker, [] => marker
  | fuel + 1, marker, p :: rest =>
    let ms := blockStep (neighbors_of_color b p color) marker rest
    blockLoop b color fuel ms.1 ms.2

/-- `_block_of`: flood fill from `stone` over same-colored neighbors,
returning the boolean marker array of the block.  (The source asserts
`is_black_white(color)`; assertion modelling is omitted, every caller in the
claims passes a stone point.) -/
def block_of (b : GoBoard) (stone : Nat) : List Bool :=
  let marker := (List.replicate b.board.length false).set stone true
  blockLoop b (b.get_color stone) (2 * b.board.length + 2) marker [stone]

/-- `_get_liberty`: scan the block's stones in index order (`where1d`) for a
first EMPTY neighbor. -/
def get_liberty (b : GoBoard) (block : List Bool) : Option Nat :=
  ((List.range block.length).filter (fun i => block.getD i false)).findSome?
    (fun stone => find_neighbor_of_color b stone EMPTY)

/-- `_has_liberty`: the block has some liberty (the `liberty_of` update in
the source is commented out). -/
def has_liberty (b : GoBoard) (block : List Bool) : Bool :=
  (get_liberty b block).isSome

/-- `_detect_and_process_capture`: despite its name and docstring it only
detects — it computes the block of `nb_point` and reports whether it has no
liberty, removing nothing and never returning a captured stone. -/
def detect_and_process_capture (b : GoBoard) (nb_point : Nat) : Bool :=
  let opp_block := block_of b nb_point
  if !(has_liberty b opp_block) then true else false

/-- The neighbor loop shared verbatim by `is_legal` and `play_move`:
`for nb in neighbors: if board[nb] == opp_color and
_detect_and_process_capture(nb): <exit>`.  Since
`detect_and_process_capture` reads but never writes the board, the loop is a
pure predicate on the board with the stone placed; each caller applies its
own exit action to the result. -/
def capture_detected (b1 : GoBoard) (opp_color : Nat) : List Nat → Bool
  | [] => false
  | nb :: rest =>
    if b1.get_color nb == opp_color then
      if detect_and_process_capture b1 nb then true
      else capture_detected b1 opp_color rest
    else capture_detected b1 opp_color rest

/-- `is_legal(point, color)`, with `point = none` embedding `PASS`.  Returned
is the pair of the boolean result and the final board state, so that the
tentative placement and its undo are visible. -/
def is_legal (b : GoBoard) (point : Option Nat) (color : Nat) : Bool × GoBoard :=
  match point with
  | none => (false, b)
  | some point =>
    if b.get_color point ≠ EMPTY then (false, b)
    else
      let opp_color := opponent color
      let _in_enemy_eye := is_surrounded b point opp_color
      let b1 : GoBoard := { b with board := b.board.set point color }
      if capture_detected b1 opp_color (neighbors b.size point) then
        (false, { b1 with board := b1.board.set point EMPTY })
      else if !(stone_has_liberty b1 point) && !(has_liberty b1 (block_of b1 point)) then
        (false, { b1 with board := b1.board.set point EMPTY })
      else
        (true, { b1 with board := b1.board.set point EMPTY })

/-- Result of `play_move`: a returned boolean, or a raised `ValueError`
carried with its message. -/
inductive MoveOutcome
  | ret (legal : Bool)
  | exn (msg : String)
deriving DecidableEq

/-- `play_move(point, color)`.  The second component is the state in which
the call finishes — including the state left behind when a `ValueError` is
raised.  (The source asserts `is_black_white(color)` on entry; assertion
modelling is omitted.)  `single_captures` is the source's dead variable: it
is initialized to `[]` and never appended to, so the ko update below it can
never fire. -/
def play_move (b : GoBoard) (point : Option Nat) (color : Nat) : MoveOutcome × GoBoard :=
  match point with
  | none => (MoveOutcome.ret false, b)
  | some point =>
    if b.get_color point ≠ EMPTY then (MoveOutcome.exn "occupied", b)
    else if b.ko_recapture == some point then (MoveOutcome.ret false, b)
    else
      let opp_color := opponent color
      let in_enemy_eye := is_surrounded b point opp_color
      let b1 : GoBoard := { b with board := b.board.set point color }
      let single_captures : List Nat := []
      if capture_detected b1 opp_color (neighbors b.size point) then
        (MoveOutcome.exn "capture", b1)
      else if !(stone_has_liberty b1 point) && !(has_liberty b1 (block_of b1 point)) then
        (MoveOutcome.exn "suicide", { b1 with board := b1.board.set point EMPTY })
      else
        (MoveOutcome.ret true,
          { b1 with
            moves := b1.moves ++ [point],
            ko_recapture :=
              if in_enemy_eye && single_captures.length == 1 then single_captures.head?
              else none,
            current_player := opponent color })

/-- `winner`: BLACK if the current player is WHITE, else WHITE. -/
def winner (b : GoBoard) : Nat :=
  if b.current_player == WHITE then BLACK else WHITE

/-- `staticallyEvaluateForPlay`: True iff the winner is the current player.
(The source's asserts that `winColor` is not EMPTY and otherwise is the
opponent of the current player are omitted; `winner` only returns BLACK or
WHITE.) -/
def staticallyEvaluateForPlay (b : GoBoard) : Bool :=
  let winColor := winner b
  winColor == b.current_player

/-- `get_empty_points`: `where1d(self.board == EMPTY)`, the indices of the
EMPTY cells in increasing order. -/
def get_empty_points (b : GoBoard) : List Nat :=
  (List.range b.board.length).filter (fun i => b.get_color i == EMPTY)

/-- Number of EMPTY cells; the measure that makes the negamax recursion
well-founded. -/
def numEmpties (b : GoBoard) : Nat :=
  (get_empty_points b).length

/-- `valid_point`: `where1d(board == BLACK) ++ where1d(board == WHITE) ++
where1d(board == EMPTY)`.  It runs once inside `reset`, on the freshly reset
grid (where the first two parts are empty), and `self.valid_points` is never
recomputed, so it is a pure function of `size`. -/
def valid_point (size : Nat) : List Nat :=
  let bd := resetBoard size
  ((List.range (maxpoint size)).filter (fun i => bd.getD i BORDER == BLACK))
  ++ ((List.range (maxpoint size)).filter (fun i => bd.getD i BORDER == WHITE))
  ++ ((List.range (maxpoint size)).filter (fun i => bd.getD i BORDER == EMPTY))

/-- `code`: `Σ board[i] * 3 ** (i - size - 1)` over `self.valid_points`. -/
def code (b : GoBoard) : Nat :=
  (valid_point b.size).foldl (fun acc i => acc + b.get_color i * 3 ^ (i - b.size - 1)) 0

/-- Modelled from the spec: `transpositiontable.py` is not under src/; §4.5
specifies a plain key-to-value store with `lookup(key) → result | unknown`
and `store(key, result)` and no eviction.  Embedded as an association list
where `store` prepends (the newest binding wins). -/
abbrev TT := List (Nat × Bool)

/-- Table lookup: the stored boolean, or `none` when unknown. -/
def TT.lookup (tt : TT) (key : Nat) : Option Bool :=
  (tt.find? (fun kv => kv.1 == key)).map (fun kv => kv.2)

/-- Table store. -/
def TT.store (tt : TT) (key : Nat) (result : Bool) : TT :=
  (key, result) :: tt

/-- The trial-move mutation the solver applies before recursing — the two
assignments `self.board[move] = color; self.current_player = opponent(color)`
from `negamaxBoolean` and `solve_single`.  Unlike `play_move` it resolves no
captures and touches neither `ko_recapture` nor `moves`. -/
def trial_move (b : GoBoard) (move color : Nat) : GoBoard :=
  { b with board := b.board.set move color, current_player := opponent color }

/-- The inverse mutation `self.board[move] = EMPTY; self.current_player =
color` undoing a trial move. -/
def undo_trial (b : GoBoard) (move color : Nat) : GoBoard :=
  { b with board := b.board.set move EMPTY, current_player := color }

/-- The `for move in empties` loop shared by `negamaxBoolean` and
`solve_single`, abstracted over the recursive call `rec`.  `codes` is the
position key computed before the loop, `color` the player saved before the
loop, `endFlag` the source's `end` variable.  The `[]` case is the code after
the loop: the terminal evaluation when `end` is still true, otherwise the
store-and-return-False exit. -/
def negamaxLoop (rec : GoBoard → TT → Bool × GoBoard × TT) (codes color : Nat) :
    List Nat → GoBoard → TT → Bool → Bool × GoBoard × TT
  | [], b, tt, endFlag =>
    if endFlag then
      let result := staticallyEvaluateForPlay b
      (result, b, TT.store tt codes result)
    else
      (false, b, TT.store tt codes false)
  | move :: rest, b, tt, endFlag =>
    let leg := is_legal b (some move) color
    let b := leg.2
    if leg.1 then
      let r := rec (trial_move b move color) tt
      let success := !r.1
      let restored := undo_trial r.2.1 move color
      if success then
        (true, { restored with current_winning_move := some move },
          TT.store r.2.2 codes true)
      else
        negamaxLoop rec codes color rest restored r.2.2 false
    else
      negamaxLoop rec codes color rest b tt endFlag

/-- `negamaxBoolean`, made total by a fuel argument bounding the recursion
depth.  Every recursive call of the source strictly decreases the number of
EMPTY cells (each trial move fills one), so `numEmpties + 1` fuel always
suffices; this is proved below as fuel-independence of the result. -/
def negamaxFuel : Nat → Bool → GoBoard → TT → Bool × GoBoard × TT
  | 0, _, b, tt => (false, b, tt)
  | fuel + 1, timeUp, b, tt =>
    if timeUp then (false, b, tt)
    else
      let codes := code b
      match TT.lookup tt codes with
      | some result => (result, b, tt)
      | none =>
        let empties := get_empty_points b
        let color := b.current_player
        negamaxLoop (negamaxFuel fuel timeUp) codes color empties b tt true

/-- `negamaxBoolean` at its sufficient fuel. -/
def negamaxBoolean (timeUp : Bool) (b : GoBoard) (tt : TT) : Bool × GoBoard × TT :=
  negamaxFuel (numEmpties b + 1) timeUp b tt

/-- `solve_single(tt, point)`: try the mirrored preferred point `fpoint`
first (without a legality check), then fall back to the generic empty-point
loop; the recursion goes through `negamaxBoolean`. -/
def solve_single (timeUp : Bool) (b : GoBoard) (tt : TT) (point : Nat) :
    Bool × GoBoard × TT :=
  let mid := ((b.size + 1) ^ 2 + b.size + 1) / 2
  let fpoint := mid + mid - point
  if timeUp then (false, b, tt)
  else
    let codes := code b
    match TT.lookup tt codes with
    | some result => (result, b, tt)
    | none =>
      let empties := get_empty_points b
      let color := b.current_player
      if fpoint ∈ empties then
        let r := negamaxBoolean timeUp (trial_move b fpoint color) tt
        let success := !r.1
        let restored := undo_trial r.2.1 fpoint color
        if success then
          (true, { restored with current_winning_move := some fpoint },
            TT.store r.2.2 codes true)
        else
          negamaxLoop (fun bb t => negamaxBoolean timeUp bb t) codes color
            empties restored r.2.2 false
      else
        negamaxLoop (fun bb t => negamaxBoolean timeUp bb t) codes color
          empties b tt true

/-- A 2×2 test position: WHITE on point 4, BLACK on point 5, points 7 and 8
empty, BLACK to move.  BLACK playing point 7 removes the last liberty of the
white block {4}. -/
def captureBoard : GoBoard :=
  { size := 2, board := [3, 3, 3, 3, 2, 1, 3, 0, 0, 3, 3, 3, 3],
    current_player := BLACK, ko_recapture := none, moves := [],
    current_winning_move := none }

/-- A 3×3 single-stone-ko position: BLACK on points 5 and 7, WHITE on 6, 9,
11 and 14, points 10, 13, 15 empty, BLACK to move.  Point 10 is surrounded by
WHITE, and BLACK playing there captures exactly one white stone (point 6) —
the classic single-stone-ko shape of the spec's ko scenario. -/
def koBoard : GoBoard :=
  { size := 3,
    board := [3, 3, 3, 3, 3, 1, 2, 1, 3, 2, 0, 2, 3, 0, 2, 0, 3, 3, 3, 3, 3],
    current_player := BLACK, ko_recapture := none, moves := [],
    current_winning_move := none }

/-- A full 2×2 position (no empty point), BLACK to move: a terminal position
for the solver. -/
def fullBoard : GoBoard :=
  { size := 2, board := [3, 3, 3, 3, 1, 2, 3, 2, 1, 3, 3, 3, 3],
    current_player := BLACK, ko_recapture := none, moves := [],
    current_winning_move := none }

/-! ### List helper lemmas -/

theorem getD_of_length_le {l : List Nat} {n : Nat} (d : Nat) (h : l.length ≤ n) :
    l.getD n d = d := by
  induction l generalizing n with
  | nil => simp [List.getD]
  | cons a t ih =>
    cases n with
    | zero => simp at h
    | succ m => simpa [List.getD] using ih (Nat.le_of_succ_le_succ h)

theorem getD_set_self {l : List Nat} {n : Nat} (v d : Nat) (h : n < l.length) :
    (l.set n v).getD n d = v := by
  induction l generalizing n with
  | nil => simp at h
  | cons a t ih =>
    cases n with
    | zero => simp [List.getD]
    | succ m => simpa [List.getD] using ih (Nat.lt_of_succ_lt_succ h)

theorem getD_set_ne {l : List Nat} {m n : Nat} (v d : Nat) (h : m ≠ n) :
    (l.set m v).getD n d = l.getD n d := by
  induction l generalizing m n with
  | nil => simp
  | cons a t ih =>
    cases m with
    | zero =>
      cases n with
      | zero => exact absurd rfl h
      | succ k => simp [List.getD]
    | succ m' =>
      cases n with
      | zero => simp [List.getD]
      | succ k => simpa [List.getD] using ih (fun hc => h (by omega))

theorem set_of_getD {l : List Nat} {n v d : Nat} (h : l.getD n d = v) (_hd : v ≠ d) :
    l.set n v = l := by
  induction l generalizing n with
  | nil => simp
  | cons a t ih =>
    cases n with
    | zero => simp_all [List.getD]
    | succ m =>
      simp only [List.getD, List.get?] at h
      simpa [List.set] using ih h

/-! ### Purity of the legality probe -/

/-- Undoing a tentative placement restores the board exactly when the target
cell was EMPTY. -/
theorem place_undo_eq {b : GoBoard} {point color : Nat}
    (h : b.get_color point = EMPTY) :
    ({ b with board := (b.board.set point color).set point EMPTY } : GoBoard) = b := by
  have h1 : (b.board.set point color).set point EMPTY = b.board.set point EMPTY :=
    List.set_set ..
  have h2 : b.board.set point EMPTY = b.board :=
    set_of_getD h (by simp [EMPTY, BORDER])
  rw [h1, h2]

/-- Shared helper: `is_legal` returns the board state it was given, on every
path. -/
theorem is_legal_snd (b : GoBoard) (point : Option Nat) (color : Nat) :
    (is_legal b point color).2 = b := by
  cases point with
  | none => rfl
  | some p =>
    by_cases h : b.get_color p = EMPTY
    · simp only [is_legal, h, ne_eq, not_true_eq_false, if_false]
      split
      · exact place_undo_eq h
      · split
        · exact place_undo_eq h
        · exact place_undo_eq h
    · simp [is_legal, h]

/-- C2.  For every point (pass included) and every color, `is_legal` leaves
the whole board state — grid, current player, ko point and move history —
bit-identical to what it was before the call, on every return path. -/
theorem is_legal_is_pure (b : GoBoard) (point : Option Nat) (color : Nat) :
    (is_legal b point color).2 = b :=
  is_legal_snd b point color

/-! ### The capture probe makes a candidate move illegal (C1) -/

/-- The shared neighbor loop fires exactly when some neighbor in the list is
opponent-colored and its block is detected as captured. -/
theorem capture_detected_iff (b : GoBoard) (opp : Nat) (l : List Nat) :
    capture_detected b opp l = true ↔
      ∃ nb ∈ l, b.get_color nb = opp ∧ detect_and_process_capture b nb = true := by
  induction l with
  | nil => simp [capture_detected]
  | cons nb rest ih =>
    by_cases h1 : b.get_color nb = opp
    · by_cases h2 : detect_and_process_capture b nb = true
      · simp [capture_detected, h1, h2]
      · simp only [capture_detected, h1, beq_self_eq_true, if_true]
        rw [if_neg (by simpa using h2)]
        simp [ih, h2, h1]
    · simp only [capture_detected]
      rw [if_neg (by simpa using h1)]
      simp [ih, h1]

/-- C1.  For every color and every empty, non-pass point: if tentatively
placing a stone of that color on the point leaves some opponent-colored
neighboring block with zero liberties (i.e. the capture probe
`detect_and_process_capture` fires during the legality check), then
`is_legal` returns False for that move. -/
theorem is_legal_false_of_capture (b : GoBoard) (point color : Nat)
    (hempty : b.get_color point = EMPTY)
    (hcap : ∃ nb ∈ neighbors b.size point,
        ({ b with board := b.board.set point color } : GoBoard).get_color nb
            = opponent color ∧
        detect_and_process_capture { b with board := b.board.set point color } nb
            = true) :
    (is_legal b (some point) color).1 = false := by
  simp only [is_legal, hempty, ne_eq, not_true_eq_false, if_false]
  rw [if_pos ((capture_detected_iff _ _ _).mpr hcap)]

/-! ### The solver restores the board on every path (C6) -/

/-- A legal non-pass move targets an EMPTY cell (the occupied check). -/
theorem get_color_empty_of_is_legal {b : GoBoard} {point color : Nat}
    (h : (is_legal b (some point) color).1 = true) : b.get_color point = EMPTY := by
  by_contra hne
  simp [is_legal, hne] at h

/-- Undoing a trial move restores the grid, provided the recursive call
preserved it and the move target was EMPTY. -/
theorem undo_trial_board {b : GoBoard} {move color : Nat} (bb : GoBoard)
    (hboard : bb.board = (trial_move b move color).board)
    (hempty : b.get_color move = EMPTY) :
    (undo_trial bb move color).board = b.board := by
  simp only [undo_trial, hboard, trial_move, List.set_set]
  exact set_of_getD hempty (by simp [EMPTY, BORDER])

/-- The move loop hands back the board it started from, with the saved
player, as long as the recursive call preserves grids. -/
theorem negamaxLoop_restores (rec : GoBoard → TT → Bool × GoBoard × TT)
    (Hrec : ∀ bb t, ((rec bb t).2.1).board = bb.board) (codes color : Nat)
    (ms : List Nat) :
    ∀ (bCur : GoBoard) (tt : TT) (endFlag : Bool),
      bCur.current_player = color →
      (negamaxLoop rec codes color ms bCur tt endFlag).2.1.board = bCur.board ∧
      (negamaxLoop rec codes color ms bCur tt endFlag).2.1.current_player = color := by
  induction ms with
  | nil =>
    intro bCur tt endFlag hp
    constructor <;> (unfold negamaxLoop; split <;> simp [hp])
  | cons move rest ih =>
    intro bCur tt endFlag hp
    rw [negamaxLoop]
    simp only [is_legal_snd]
    by_cases hleg : (is_legal bCur (some move) color).1 = true
    · rw [if_pos hleg]
      have hempty := get_color_empty_of_is_legal hleg
      have hrb : ((rec (trial_move bCur move color) tt).2.1).board
          = (trial_move bCur move color).board := Hrec _ _
      have hres : (undo_trial (rec (trial_move bCur move color) tt).2.1 move color).board
          = bCur.board := undo_trial_board _ hrb hempty
      by_cases hsucc : (!(rec (trial_move bCur move color) tt).1) = true
      · rw [if_pos hsucc]
        exact ⟨hres, rfl⟩
      · rw [if_neg hsucc]
        have hrec := ih (undo_trial (rec (trial_move bCur move color) tt).2.1 move color)
          (rec (trial_move bCur move color) tt).2.2 false rfl
        exact ⟨hrec.1.trans hres, hrec.2⟩
    · rw [if_neg hleg]
      exact ih bCur tt endFlag hp

/-- `negamaxFuel` restores the grid and the player at every fuel value. -/
theorem negamaxFuel_restores (fuel : Nat) :
    ∀ (timeUp : Bool) (b : GoBoard) (tt : TT),
      (negamaxFuel fuel timeUp b tt).2.1.board = b.board ∧
      (negamaxFuel fuel timeUp b tt).2.1.current_player = b.current_player := by
  induction fuel with
  | zero => intro timeUp b tt; simp [negamaxFuel]
  | succ n ih =>
    intro timeUp b tt
    rw [negamaxFuel]
    by_cases ht : timeUp = true
    · simp [ht]
    · rw [if_neg ht]
      cases hl : TT.lookup tt (code b) with
      | some r => simp [hl]
      | none =>
        simp only [hl]
        exact negamaxLoop_restores _ (fun bb t => (ih timeUp bb t).1) _ _ _ b tt true rfl

/-- `negamaxBoolean` restores the grid and the player. -/
theorem negamaxBoolean_restores (timeUp : Bool) (b : GoBoard) (tt : TT) :
    (negamaxBoolean timeUp b tt).2.1.board = b.board ∧
    (negamaxBoolean timeUp b tt).2.1.current_player = b.current_player :=
  negamaxFuel_restores _ timeUp b tt

/-- Membership in `get_empty_points` means the cell is EMPTY. -/
theorem get_color_of_mem_empties {b : GoBoard} {p : Nat}
    (h : p ∈ get_empty_points b) : b.get_color p = EMPTY := by
  simp [get_empty_points] at h
  exact h.2

/-- `solve_single` restores the grid and the player. -/
theorem solve_single_restores (timeUp : Bool) (b : GoBoard) (tt : TT) (point : Nat) :
    (solve_single timeUp b tt point).2.1.board = b.board ∧
    (solve_single timeUp b tt point).2.1.current_player = b.current_player := by
  rw [solve_single]
  cases timeUp with
  | true => simp
  | false =>
    simp only [Bool.false_eq_true, if_false]
    cases hl : TT.lookup tt (code b) with
    | some r => simp [hl]
    | none =>
      simp only [hl]
      split
      · next hf =>
        have hempty := get_color_of_mem_empties hf
        have hres := undo_trial_board
          (negamaxBoolean false (trial_move b _ b.current_player) tt).2.1
          (negamaxBoolean_restores false (trial_move b _ b.current_player) tt).1 hempty
        split
        · exact ⟨hres, rfl⟩
        · have hrec := negamaxLoop_restores (fun bb t => negamaxBoolean false bb t)
            (fun bb t => (negamaxBoolean_restores false bb t).1) (code b) b.current_player
            (get_empty_points b)
            (undo_trial (negamaxBoolean false (trial_move b
                (((b.size + 1) ^ 2 + b.size + 1) / 2 + ((b.size + 1) ^ 2 + b.size + 1) / 2 - point)
                b.current_player) tt).2.1
              (((b.size + 1) ^ 2 + b.size + 1) / 2 + ((b.size + 1) ^ 2 + b.size + 1) / 2 - point)
              b.current_player)
            (negamaxBoolean false (trial_move b
                (((b.size + 1) ^ 2 + b.size + 1) / 2 + ((b.size + 1) ^ 2 + b.size + 1) / 2 - point)
                b.current_player) tt).2.2 false rfl
          exact ⟨hrec.1.trans hres, hrec.2⟩
      · exact negamaxLoop_restores (fun bb t => negamaxBoolean false bb t)
          (fun bb t => (negamaxBoolean_restores false bb t).1) (code b) b.current_player
          (get_empty_points b) b tt true rfl

/-- C6.  For every board state and transposition table (and either value of
the deadline poll), `negamaxBoolean` and likewise `solve_single` restore the
board before returning: after the call the grid and the current player equal
their values at entry, on every path — the early return on a winning child
included. -/
theorem solver_restores_state (timeUp : Bool) (b : GoBoard) (tt : TT) :
    ((negamaxBoolean timeUp b tt).2.1.board = b.board ∧
     (negamaxBoolean timeUp b tt).2.1.current_player = b.current_player) ∧
    ∀ point, (solve_single timeUp b tt point).2.1.board = b.board ∧
      (solve_single timeUp b tt point).2.1.current_player = b.current_player :=
  ⟨negamaxBoolean_restores timeUp b tt, fun point => solve_single_restores timeUp b tt point⟩

/-- Witness for C1 at a concrete input: on `captureBoard`, BLACK playing the
empty point 7 captures the white block {4} in the probe, and `is_legal`
answers false. -/
theorem is_legal_false_of_capture_witness :
    captureBoard.get_color 7 = EMPTY ∧ (is_legal captureBoard (some 7) BLACK).1 = false :=
  ⟨by decide, is_legal_false_of_capture captureBoard 7 BLACK (by decide) (by decide)⟩

/-! ### `play_move` on a capturing move (C3, C4, C5) -/

/-- C3 (code_bug evidence).  On `captureBoard`, BLACK playing point 7 leaves
the neighboring white block {4} with zero liberties; the claim (and the
source's own docstring of `_detect_and_process_capture`) says the committed
move succeeds and the captured block is emptied, but `play_move` instead
raises `ValueError("capture")` and the "captured" stone at point 4 is still
WHITE in the state left behind. -/
theorem play_move_capture_raises :
    (play_move captureBoard (some 7) BLACK).1 = MoveOutcome.exn "capture" ∧
    (play_move captureBoard (some 7) BLACK).2.get_color 4 = WHITE := by
  decide

/-- C4 (counterexample).  A failing `play_move` call — BLACK playing point 7
on `captureBoard` raises the capture signal — after which the board state is
observably mutated (the tentatively placed stone is still on the board). -/
theorem play_move_capture_mutates :
    (play_move captureBoard (some 7) BLACK).1 = MoveOutcome.exn "capture" ∧
    (play_move captureBoard (some 7) BLACK).2 ≠ captureBoard := by
  decide

/-- C4 (amended).  On the pass, ko, occupied and suicide failure paths
`play_move` leaves the state bit-identical; on the capture-signal raise the
tentatively placed stone remains at the played point (everything else —
current player, ko point, move history — unchanged, as the record shows). -/
theorem play_move_failure_frame (b : GoBoard) (point : Option Nat) (color : Nat) :
    ((play_move b point color).1 = MoveOutcome.ret false →
      (play_move b point color).2 = b) ∧
    ((play_move b point color).1 = MoveOutcome.exn "occupied" →
      (play_move b point color).2 = b) ∧
    ((play_move b point color).1 = MoveOutcome.exn "suicide" →
      (play_move b point color).2 = b) ∧
    ((play_move b point color).1 = MoveOutcome.exn "capture" →
      ∃ p, point = some p ∧ b.get_color p = EMPTY ∧
        (play_move b point color).2 = { b with board := b.board.set p color }) := by
  cases point with
  | none =>
    refine ⟨fun _ => rfl, ?_, ?_, ?_⟩ <;> (intro h; simp [play_move] at h)
  | some p =>
    by_cases hocc : b.get_color p = EMPTY
    · by_cases hko : b.ko_recapture = some p
      · have hred : play_move b (some p) color = (MoveOutcome.ret false, b) := by
          simp only [play_move, hocc, ne_eq, not_true_eq_false, if_false]
          rw [if_pos (by simp [hko])]
        refine ⟨fun _ => by rw [hred], ?_, ?_, ?_⟩ <;> (intro h; rw [hred] at h; simp at h)
      · by_cases hcap : capture_detected { b with board := b.board.set p color }
            (opponent color) (neighbors b.size p) = true
        · have hred : play_move b (some p) color
              = (MoveOutcome.exn "capture", { b with board := b.board.set p color }) := by
            simp only [play_move, hocc, ne_eq, not_true_eq_false, if_false]
            rw [if_neg (by simp [hko]), if_pos hcap]
          refine ⟨?_, ?_, ?_, fun _ => ⟨p, rfl, hocc, by rw [hred]⟩⟩ <;>
            (intro h; rw [hred] at h; simp at h)
        · by_cases hsui : (!(stone_has_liberty { b with board := b.board.set p color } p)
              && !(has_liberty { b with board := b.board.set p color }
                    (block_of { b with board := b.board.set p color } p))) = true
          · have hred : play_move b (some p) color
                = (MoveOutcome.exn "suicide",
                    { b with board := (b.board.set p color).set p EMPTY }) := by
              simp only [play_move, hocc, ne_eq, not_true_eq_false, if_false]
              rw [if_neg (by simp [hko]), if_neg hcap, if_pos hsui]
            refine ⟨?_, ?_, fun _ => by rw [hred]; exact place_undo_eq hocc, ?_⟩ <;>
              (intro h; rw [hred] at h; simp at h)
          · have hfst : (play_move b (some p) color).1 = MoveOutcome.ret true := by
              simp only [play_move, hocc, ne_eq, not_true_eq_false, if_false]
              rw [if_neg (by simp [hko]), if_neg hcap, if_neg hsui]
            refine ⟨?_, ?_, ?_, ?_⟩ <;> (intro h; rw [hfst] at h; simp at h)
    · have hred : play_move b (some p) color = (MoveOutcome.exn "occupied", b) := by
        simp only [play_move]
        rw [if_pos hocc]
      refine ⟨?_, fun _ => by rw [hred], ?_, ?_⟩ <;> (intro h; rw [hred] at h; simp at h)

/-- Witness for the amended C4: the capture-signal case realized concretely
through the theorem. -/
theorem play_move_failure_frame_witness :
    ∃ p, (some 7 : Option Nat) = some p ∧ captureBoard.get_color p = EMPTY ∧
      (play_move captureBoard (some 7) BLACK).2
        = { captureBoard with board := captureBoard.board.set p BLACK } :=
  (play_move_failure_frame captureBoard (some 7) BLACK).2.2.2 (by decide)

/-- C5 (code_bug evidence).  On the single-stone-ko position `koBoard` the
committed BLACK move at point 10 (surrounded by WHITE, capturing exactly the
white stone 6) should set `ko_recapture` to the captured point; instead
`play_move` raises the capture signal, and `ko_recapture` is never set — the
`single_captures` list that feeds the ko update is dead code that always
stays empty. -/
theorem play_move_never_sets_ko :
    is_surrounded koBoard 10 (opponent BLACK) = true ∧
    (play_move koBoard (some 10) BLACK).1 = MoveOutcome.exn "capture" ∧
    (play_move koBoard (some 10) BLACK).2.ko_recapture = none := by
  decide

/-! ### Terminal evaluation (C7) -/

/-- `staticallyEvaluateForPlay` always answers False: `winner` returns the
opponent of the side to move (the player who made the last move), never the
side to move itself. -/
theorem staticallyEvaluateForPlay_eq_false (b : GoBoard) :
    staticallyEvaluateForPlay b = false := by
  unfold staticallyEvaluateForPlay winner
  by_cases h : b.current_player = WHITE
  · simp [h, BLACK, WHITE]
  · rw [if_neg (by simpa using h)]
    simp only [beq_iff_eq, beq_eq_false_iff_ne, ne_eq]
    simpa using fun hc => h hc.symm

/-- When every move in the list is illegal the loop falls through with
`end = True` and performs the terminal store-and-return. -/
theorem negamaxLoop_all_illegal (rec : GoBoard → TT → Bool × GoBoard × TT)
    (codes color : Nat) (ms : List Nat) :
    ∀ (bCur : GoBoard) (tt : TT),
      (∀ m ∈ ms, (is_legal bCur (some m) color).1 = false) →
      negamaxLoop rec codes color ms bCur tt true =
        (staticallyEvaluateForPlay bCur, bCur,
          TT.store tt codes (staticallyEvaluateForPlay bCur)) := by
  induction ms with
  | nil => intro bCur tt _; rfl
  | cons m rest ih =>
    intro bCur tt h
    rw [negamaxLoop]
    simp only [is_legal_snd]
    rw [if_neg (by simp [h m (by simp)])]
    exact ih bCur tt (fun x hx => h x (by simp [hx]))

/-- C7.  If at entry to `negamaxBoolean` there is no timeout, the position is
not cached, and no empty point is legal for the current player, then the
function returns the terminal evaluation — False, a loss for the side to
move, because the player who made the last move is the winner — and stores
that result in the table under the position's key. -/
theorem negamax_terminal_loss (b : GoBoard) (tt : TT)
    (hmiss : TT.lookup tt (code b) = none)
    (hnolegal : ∀ m ∈ get_empty_points b,
        (is_legal b (some m) b.current_player).1 = false) :
    negamaxBoolean false b tt = (false, b, TT.store tt (code b) false) := by
  rw [negamaxBoolean, negamaxFuel]
  simp only [Bool.false_eq_true, if_false, hmiss]
  rw [negamaxLoop_all_illegal (negamaxFuel (numEmpties b) false) (code b)
    b.current_player (get_empty_points b) b tt hnolegal]
  rw [staticallyEvaluateForPlay_eq_false b]

/-- Witness for C7: the full 2×2 position has no empty point at all, so the
terminal rule fires with a fresh table. -/
theorem negamax_terminal_loss_witness :
    TT.lookup [] (code fullBoard) = none ∧
    negamaxBoolean false fullBoard []
      = (false, fullBoard, TT.store [] (code fullBoard) false) :=
  ⟨by decide, negamax_terminal_loss fullBoard [] (by decide) (by decide)⟩

/-! ### The trial move of the solver (C10) -/

/-- C10.  The trial move applied by `negamaxBoolean` and `solve_single`
before recursing mutates the grid at exactly the played point and flips the
current player, and nothing else: no capture is resolved (every other cell —
a capturable opponent block included — keeps its contents), and the ko point
and the move history are untouched. -/
theorem trial_move_frame (b : GoBoard) (move color : Nat) (h : move < b.board.length) :
    (trial_move b move color).board.getD move BORDER = color ∧
    (∀ p, p ≠ move → (trial_move b move color).board.getD p BORDER = b.board.getD p BORDER) ∧
    (trial_move b move color).current_player = opponent color ∧
    (trial_move b move color).ko_recapture = b.ko_recapture ∧
    (trial_move b move color).moves = b.moves :=
  ⟨getD_set_self color BORDER h,
   fun _p hp => getD_set_ne color BORDER (Ne.symm hp),
   rfl, rfl, rfl⟩

/-- Witness for C10 at a concrete input: the trial move at point 7 of
`captureBoard` places the stone and leaves the rest alone. -/
theorem trial_move_frame_witness :
    (trial_move captureBoard 7 BLACK).board.getD 7 BORDER = BLACK ∧
    (trial_move captureBoard 7 BLACK).ko_recapture = captureBoard.ko_recapture :=
  ⟨(trial_move_frame captureBoard 7 BLACK (by decide)).1,
   (trial_move_frame captureBoard 7 BLACK (by decide)).2.2.2.1⟩

/-! ### The position encoder (C8) -/

/-- Folding `acc + f i` is summing. -/
theorem foldl_add_map (f : Nat → Nat) (l : List Nat) :
    ∀ init : Nat, l.foldl (fun acc i => acc + f i) init = init + (l.map f).sum := by
  induction l with
  | nil => intro init; simp
  | cons a t ih => intro init; simp [ih, List.sum_cons]; omega

/-- `code` as a sum over the canonical point list. -/
theorem code_eq_sum (b : GoBoard) :
    code b = ((valid_point b.size).map
      (fun i => b.get_color i * 3 ^ (i - (b.size + 1)))).sum := by
  rw [code, foldl_add_map, Nat.zero_add]
  simp [Nat.sub_sub]

/-- `getD` on a replicated list is the replicated value or the default. -/
theorem getD_replicate_self (n i x : Nat) : (List.replicate n x).getD i x = x := by
  induction n generalizing i with
  | zero => rfl
  | succ m ih =>
    cases i with
    | zero => rfl
    | succ j => exact ih j

/-- `fillRow` writes only EMPTY: each cell is EMPTY or what it was. -/
theorem fillRow_getD_cases (len : Nat) :
    ∀ (bd : List Nat) (start i d : Nat),
      (fillRow bd start len).getD i d = EMPTY ∨
      (fillRow bd start len).getD i d = bd.getD i d := by
  induction len with
  | zero => intro bd start i d; right; rfl
  | succ m ih =>
    intro bd start i d
    rw [fillRow]
    rcases ih (bd.set start EMPTY) (start + 1) i d with h | h
    · left; exact h
    · by_cases hs : start = i
      · subst hs
        by_cases hlen : start < bd.length
        · left; rw [h]; exact getD_set_self EMPTY d hlen
        · right; rw [h, List.set_eq_of_length_le (Nat.le_of_not_lt hlen)]
      · right; rw [h, getD_set_ne EMPTY d hs]

/-- `fillRow` leaves cells below `start` alone. -/
theorem fillRow_getD_low (len : Nat) :
    ∀ (bd : List Nat) (start i d : Nat), i < start →
      (fillRow bd start len).getD i d = bd.getD i d := by
  induction len with
  | zero => intro bd start i d _; rfl
  | succ m ih =>
    intro bd start i d hi
    rw [fillRow, ih (bd.set start EMPTY) (start + 1) i d (Nat.lt_succ_of_lt hi)]
    exact getD_set_ne EMPTY d (by omega)

/-- Every cell of the reset grid is EMPTY or BORDER. -/
theorem resetBoard_cases (size i : Nat) :
    (resetBoard size).getD i BORDER = EMPTY ∨ (resetBoard size).getD i BORDER = BORDER := by
  rw [resetBoard, init_empty_points]
  have key : ∀ (rows : List Nat) (bd : List Nat),
      (∀ j, bd.getD j BORDER = EMPTY ∨ bd.getD j BORDER = BORDER) →
      ∀ j, ((rows.foldl (fun bb row => fillRow bb (row_start size (row + 1)) size) bd).getD
        j BORDER = EMPTY ∨
      (rows.foldl (fun bb row => fillRow bb (row_start size (row + 1)) size) bd).getD
        j BORDER = BORDER) := by
    intro rows
    induction rows with
    | nil => intro bd hbd j; exact hbd j
    | cons r rest ih =>
      intro bd hbd j
      refine ih (fillRow bd (row_start size (r + 1)) size) (fun j2 => ?_) j
      rcases fillRow_getD_cases size bd (row_start size (r + 1)) j2 BORDER with h | h
      · left; exact h
      · rw [h]; exact hbd j2
  refine key (List.range size) _ (fun j => Or.inr ?_) i
  exact getD_replicate_self _ j BORDER

/-- Cells below the first row start are BORDER on the reset grid. -/
theorem resetBoard_low {size i : Nat} (hi : i < size + 2) :
    (resetBoard size).getD i BORDER = BORDER := by
  rw [resetBoard, init_empty_points]
  have key : ∀ (rows : List Nat) (bd : List Nat),
      ((rows.foldl (fun bb row => fillRow bb (row_start size (row + 1)) size) bd).getD
        i BORDER = bd.getD i BORDER) := by
    intro rows
    induction rows with
    | nil => intro bd; rfl
    | cons r rest ih =>
      intro bd
      rw [List.foldl_cons, ih (fillRow bd (row_start size (r + 1)) size)]
      refine fillRow_getD_low size bd (row_start size (r + 1)) i BORDER ?_
      have hmul : size + 1 ≤ (r + 1) * (size + 1) :=
        Nat.le_mul_of_pos_left (size + 1) (by omega)
      simp only [row_start]
      omega
  rw [key (List.range size) _]
  exact getD_replicate_self _ i BORDER

/-- The stored `valid_points` is just the EMPTY filter: the reset grid holds
no BLACK and no WHITE cell. -/
theorem valid_point_eq_filter (size : Nat) :
    valid_point size = (List.range (maxpoint size)).filter
      (fun i => (resetBoard size).getD i BORDER == EMPTY) := by
  rw [valid_point]
  have hb : (List.range (maxpoint size)).filter
      (fun i => (resetBoard size).getD i BORDER == BLACK) = [] := by
    refine List.filter_eq_nil_iff.mpr (fun a _ => ?_)
    simp only [beq_iff_eq]
    rcases resetBoard_cases size a with h | h <;> rw [h] <;> decide
  have hw : (List.range (maxpoint size)).filter
      (fun i => (resetBoard size).getD i BORDER == WHITE) = [] := by
    refine List.filter_eq_nil_iff.mpr (fun a _ => ?_)
    simp only [beq_iff_eq]
    rcases resetBoard_cases size a with h | h <;> rw [h] <;> decide
  rw [hb, hw]
  rfl

/-- The canonical point list is strictly increasing. -/
theorem valid_point_pairwise (size : Nat) :
    (valid_point size).Pairwise (· < ·) := by
  rw [valid_point_eq_filter]
  exact List.Pairwise.sublist (List.filter_sublist _) (List.pairwise_lt_range _)

/-- Every canonical point lies beyond the first border row. -/
theorem valid_point_lower {size i : Nat} (h : i ∈ valid_point size) :
    size + 1 < i := by
  rw [valid_point_eq_filter] at h
  have h2 := (List.mem_filter.mp h).2
  by_contra hc
  rw [resetBoard_low (by omega)] at h2
  simp [BORDER, EMPTY] at h2

/-- Distinct base-3 digit expansions over a strictly increasing exponent list
differ: digit uniqueness. -/
theorem sum_pow3_digits_inj (s : Nat) (f g : Nat → Nat) :
    ∀ (l : List Nat), l.Pairwise (· < ·) → (∀ i ∈ l, s < i) →
      (∀ i ∈ l, f i < 3) → (∀ i ∈ l, g i < 3) →
      (l.map (fun i => f i * 3 ^ (i - s))).sum = (l.map (fun i => g i * 3 ^ (i - s))).sum →
      ∀ i ∈ l, f i = g i := by
  intro l
  induction l with
  | nil => intro _ _ _ _ _ i hi; simp at hi
  | cons a t ih =>
    intro hpair hlow hf hg hsum i hi
    have hpa := List.pairwise_cons.mp hpair
    have hdvd1 : (3 : Nat) ^ (a - s + 1) ∣ (t.map (fun j => f j * 3 ^ (j - s))).sum := by
      refine List.dvd_sum (fun x hx => ?_)
      obtain ⟨j, hj, rfl⟩ := List.mem_map.mp hx
      have : a - s + 1 ≤ j - s := by
        have := hpa.1 j hj
        have := hlow a (by simp)
        omega
      exact Dvd.dvd.mul_left (pow_dvd_pow 3 this) _
    have hdvd2 : (3 : Nat) ^ (a - s + 1) ∣ (t.map (fun j => g j * 3 ^ (j - s))).sum := by
      refine List.dvd_sum (fun x hx => ?_)
      obtain ⟨j, hj, rfl⟩ := List.mem_map.mp hx
      have : a - s + 1 ≤ j - s := by
        have := hpa.1 j hj
        have := hlow a (by simp)
        omega
      exact Dvd.dvd.mul_left (pow_dvd_pow 3 this) _
    obtain ⟨k1, hk1⟩ := hdvd1
    obtain ⟨k2, hk2⟩ := hdvd2
    rw [List.map_cons, List.map_cons, List.sum_cons, List.sum_cons, hk1, hk2] at hsum
    rw [pow_succ] at hsum
    have hfa : f a < 3 := hf a (by simp)
    have hga : g a < 3 := hg a (by simp)
    have hpos : 0 < 3 ^ (a - s) := Nat.pow_pos (by omega)
    have hkey : f a + 3 * k1 = g a + 3 * k2 := by
      refine Nat.eq_of_mul_eq_mul_left hpos ?_
      calc 3 ^ (a - s) * (f a + 3 * k1)
          = f a * 3 ^ (a - s) + 3 ^ (a - s) * 3 * k1 := by ring
        _ = g a * 3 ^ (a - s) + 3 ^ (a - s) * 3 * k2 := hsum
        _ = 3 ^ (a - s) * (g a + 3 * k2) := by ring
    have hfg : f a = g a := by omega
    have hk : k1 = k2 := by omega
    rcases List.mem_cons.mp hi with rfl | hit
    · exact hfg
    · refine ih hpa.2 (fun j hj => hlow j (by simp [hj]))
        (fun j hj => hf j (by simp [hj])) (fun j hj => hg j (by simp [hj])) ?_ i hit
      rw [hk1, hk2, hk]

/-- C8.  For a fixed board size (with well-formed cell values 0,1,2 on the
canonical on-board point list), `code()` is a pure function of cell contents:
equal cells give equal keys and a difference at some on-board cell gives
different keys; and the key ignores `ko_recapture`, the move history and the
cached winning move entirely. -/
theorem code_deterministic_injective (b1 b2 : GoBoard) (hsz : b1.size = b2.size)
    (h1 : ∀ i ∈ valid_point b1.size, b1.get_color i < 3)
    (h2 : ∀ i ∈ valid_point b1.size, b2.get_color i < 3) :
    ((code b1 = code b2) ↔ ∀ i ∈ valid_point b1.size, b1.get_color i = b2.get_color i) ∧
    (∀ k m w,
      code { b1 with ko_recapture := k, moves := m, current_winning_move := w }
        = code b1) := by
  constructor
  · have hc2 : code b2 = ((valid_point b1.size).map
        (fun i => b2.get_color i * 3 ^ (i - (b1.size + 1)))).sum := by
      rw [code_eq_sum, ← hsz]
    constructor
    · intro hcode
      refine sum_pow3_digits_inj (b1.size + 1) b1.get_color b2.get_color
        (valid_point b1.size) (valid_point_pairwise _)
        (fun i hi => valid_point_lower hi) h1 h2 ?_
      rw [← code_eq_sum, ← hc2]
      exact hcode
    · intro hcells
      rw [code_eq_sum, hc2]
      exact congrArg List.sum (List.map_congr_left (fun i hi => by rw [hcells i hi]))
  · intro k m w
    rfl

/-- Witness for C8: two concrete 2×2 boards differing at on-board point 4
have different keys, by the injectivity direction of the theorem. -/
theorem code_deterministic_injective_witness :
    code captureBoard ≠ code fullBoard := by
  have h := (code_deterministic_injective captureBoard fullBoard rfl
    (by decide) (by decide)).1
  intro hc
  exact absurd (h.mp hc 4 (by decide)) (by decide)

/-! ### Termination of the search (C9) -/

/-- Flipping exactly one cell of the filtered range from hit to miss strictly
shrinks the filter. -/
theorem filter_range_length_lt {n m : Nat} (p q : Nat → Bool)
    (hm : m < n) (hp : p m = true) (hq : q m = false)
    (hagree : ∀ i, i ≠ m → q i = p i) :
    ((List.range n).filter q).length < ((List.range n).filter p).length := by
  induction n with
  | zero => omega
  | succ k ih =>
    rw [List.range_succ, List.filter_append, List.filter_append,
      List.length_append, List.length_append]
    by_cases hk : m = k
    · subst hk
      have hfilters : (List.range m).filter q = (List.range m).filter p :=
        List.filter_congr (fun a ha => hagree a (by simp at ha; omega))
      rw [hfilters]
      simp [hp, hq]
    · have hqp : q k = p k := hagree k (by omega)
      have hlast : ([k].filter q).length = ([k].filter p).length := by
        cases hpk : p k <;> simp [List.filter_cons, hqp, hpk]
      have := ih (by omega)
      omega

/-- `numEmpties` only looks at the grid. -/
theorem numEmpties_congr {b1 b2 : GoBoard} (h : b1.board = b2.board) :
    numEmpties b1 = numEmpties b2 := by
  unfold numEmpties get_empty_points GoBoard.get_color
  rw [h]

/-- A Black or White trial move on an EMPTY cell strictly decreases the
number of EMPTY cells — the measure behind the termination of the search
recursion. -/
theorem numEmpties_trial_lt {b : GoBoard} {move color : Nat}
    (hempty : b.get_color move = EMPTY) (hbw : is_black_white color = true) :
    numEmpties (trial_move b move color) < numEmpties b := by
  have hlen : move < b.board.length := by
    by_contra hc
    rw [GoBoard.get_color, getD_of_length_le BORDER (by omega)] at hempty
    exact absurd hempty (by decide)
  have hcol : (color == EMPTY) = false := by
    have h' : color = BLACK ∨ color = WHITE := by simpa [is_black_white] using hbw
    rcases h' with rfl | rfl <;> decide
  unfold numEmpties get_empty_points
  simp only [trial_move, List.length_set]
  refine filter_range_length_lt (fun i => b.get_color i == EMPTY)
    (fun i => GoBoard.get_color
      { b with board := b.board.set move color, current_player := opponent color } i
      == EMPTY) hlen ?_ ?_ ?_
  · rw [beq_iff_eq]; exact hempty
  · show ((b.board.set move color).getD move BORDER == EMPTY) = false
    rw [getD_set_self color BORDER hlen]
    exact hcol
  · intro i hi
    show ((b.board.set move color).getD i BORDER == EMPTY)
      = (b.board.getD i BORDER == EMPTY)
    rw [getD_set_ne color BORDER (Ne.symm hi)]

/-- The opponent of any color is Black or White. -/
theorem is_black_white_opponent (c : Nat) : is_black_white (opponent c) = true := by
  unfold opponent
  by_cases h : c = BLACK
  · rw [if_pos h]; decide
  · rw [if_neg h]; decide

/-- Two runs of the move loop whose recursive calls agree on all boards with
strictly fewer empty cells than the anchor produce identical results. -/
theorem negamaxLoop_congr_rec (rec1 rec2 : GoBoard → TT → Bool × GoBoard × TT)
    (codes color : Nat) (b0 : GoBoard)
    (Hr1 : ∀ bb t, ((rec1 bb t).2.1).board = bb.board)
    (Hrec : ∀ bb t, numEmpties bb < numEmpties b0 →
      is_black_white bb.current_player = true → rec1 bb t = rec2 bb t)
    (hbw : is_black_white color = true) (ms : List Nat) :
    ∀ (bCur : GoBoard) (tt : TT) (endFlag : Bool), bCur.board = b0.board →
      negamaxLoop rec1 codes color ms bCur tt endFlag
        = negamaxLoop rec2 codes color ms bCur tt endFlag := by
  induction ms with
  | nil => intro bCur tt endFlag _; rfl
  | cons move rest ih =>
    intro bCur tt endFlag hb
    rw [negamaxLoop, negamaxLoop]
    simp only [is_legal_snd]
    by_cases hleg : (is_legal bCur (some move) color).1 = true
    · rw [if_pos hleg, if_pos hleg]
      have hempty := get_color_empty_of_is_legal hleg
      have hlt : numEmpties (trial_move bCur move color) < numEmpties b0 := by
        rw [← numEmpties_congr hb]
        exact numEmpties_trial_lt hempty hbw
      have hbwc : is_black_white (trial_move bCur move color).current_player = true :=
        is_black_white_opponent color
      rw [← Hrec (trial_move bCur move color) tt hlt hbwc]
      by_cases hsucc : (!(rec1 (trial_move bCur move color) tt).1) = true
      · rw [if_pos hsucc, if_pos hsucc]
      · rw [if_neg hsucc, if_neg hsucc]
        refine ih (undo_trial (rec1 (trial_move bCur move color) tt).2.1 move color)
          (rec1 (trial_move bCur move color) tt).2.2 false ?_
        rw [undo_trial_board _ (Hr1 _ _) hempty, hb]
    · rw [if_neg hleg, if_neg hleg]
      exact ih bCur tt endFlag hb

/-- Fuel-independence: any fuel exceeding the number of empty cells yields
the same search result — the embedded recursion bottoms out before the fuel
does, which is exactly the termination of the source's recursion. -/
theorem negamaxFuel_stable (n : Nat) :
    ∀ (b : GoBoard) (tt : TT) (timeUp : Bool) (f1 f2 : Nat),
      is_black_white b.current_player = true →
      numEmpties b ≤ n → n < f1 → n < f2 →
      negamaxFuel f1 timeUp b tt = negamaxFuel f2 timeUp b tt := by
  induction n with
  | zero =>
    intro b tt timeUp f1 f2 _ hn h1 h2
    obtain ⟨k1, rfl⟩ : ∃ k, f1 = k + 1 := ⟨f1 - 1, by omega⟩
    obtain ⟨k2, rfl⟩ : ∃ k, f2 = k + 1 := ⟨f2 - 1, by omega⟩
    rw [negamaxFuel, negamaxFuel]
    by_cases ht : timeUp = true
    · rw [if_pos ht, if_pos ht]
    · rw [if_neg ht, if_neg ht]
      cases hl : TT.lookup tt (code b) with
      | some r => simp only [hl]
      | none =>
        simp only [hl]
        have hemp : get_empty_points b = [] := List.length_eq_zero.mp (by
          have : numEmpties b = 0 := by omega
          exact this)
        rw [hemp]
        rfl
  | succ n ih =>
    intro b tt timeUp f1 f2 hbw hn h1 h2
    obtain ⟨k1, rfl⟩ : ∃ k, f1 = k + 1 := ⟨f1 - 1, by omega⟩
    obtain ⟨k2, rfl⟩ : ∃ k, f2 = k + 1 := ⟨f2 - 1, by omega⟩
    rw [negamaxFuel, negamaxFuel]
    by_cases ht : timeUp = true
    · rw [if_pos ht, if_pos ht]
    · rw [if_neg ht, if_neg ht]
      cases hl : TT.lookup tt (code b) with
      | some r => simp only [hl]
      | none =>
        simp only [hl]
        exact negamaxLoop_congr_rec (negamaxFuel k1 timeUp) (negamaxFuel k2 timeUp)
          (code b) b.current_player b
          (fun bb t => (negamaxFuel_restores k1 timeUp bb t).1)
          (fun bb t hlt hbb => ih bb t timeUp k1 k2 hbb (by omega) (by omega) (by omega))
          hbw (get_empty_points b) b tt true rfl

/-- C9.  The search terminates: every legal trial move hands the recursive
call a board with strictly fewer empty points, and consequently any fuel
beyond the number of empty points yields the very same result as
`negamaxBoolean` — with no timeout the solve bottoms out and returns a
definite answer. -/
theorem negamax_terminates (b : GoBoard) (tt : TT) (fuel : Nat)
    (hbw : is_black_white b.current_player = true)
    (hfuel : numEmpties b < fuel) :
    (∀ move, (is_legal b (some move) b.current_player).1 = true →
      numEmpties (trial_move b move b.current_player) < numEmpties b) ∧
    negamaxFuel fuel false b tt = negamaxBoolean false b tt := by
  constructor
  · intro move hleg
    exact numEmpties_trial_lt (get_color_empty_of_is_legal hleg) hbw
  · exact negamaxFuel_stable (numEmpties b) b tt false fuel (numEmpties b + 1)
      hbw le_rfl hfuel (by omega)

/-- Witness for C9: on `captureBoard` (two empty points) the fixed point of
the search is already reached at fuel 4, and a legal move shrinks the empty
set. -/
theorem negamax_terminates_witness :
    numEmpties captureBoard < 4 ∧
    negamaxFuel 4 false captureBoard [] = negamaxBoolean false captureBoard [] ∧
    numEmpties (trial_move captureBoard 8 captureBoard.current_player)
      < numEmpties captureBoard :=
  ⟨by decide,
   (negamax_terminates captureBoard [] 4 (by decide) (by decide)).2,
   (negamax_terminates captureBoard [] 4 (by decide) (by decide)).1 8 (by decide)⟩
